import Mathlib

/-!
Verification of the py-rocket-geospatial-2 CI helper scripts.

The repository consists of four Python scripts under .github/scripts that
reconcile declared dependency manifests (conda environment YAML files, an R
install script, a shell script) against a ground-truth package list.  This
file gives a shallow embedding of the pure core of those scripts as Lean
functions over lists of characters and lines, and proves (or refutes) the
testable properties stated about them.

Files are modelled at line granularity: a file is a `List String` of its
lines without trailing newline characters; two files are byte-identical
precisely when the line lists are equal.  Python character predicates are
modelled for the ASCII range, which covers every character the scripts
inspect (whitespace, quotes, comparison operators, letters and digits).
-/

/-- The six ASCII whitespace characters recognised by Python `str.strip`. -/
def pyIsSpace (c : Char) : Bool :=
  c = ' ' || c = '\t' || c = '\n' || c = '\r' || c = '\x0b' || c = '\x0c'

/-- The uppercase ASCII letters, the characters changed by `str.lower`. -/
def upList : List Char :=
  ['A', 'B', 'C', 'D', 'E', 'F', 'G', 'H', 'I', 'J', 'K', 'L', 'M',
   'N', 'O', 'P', 'Q', 'R', 'S', 'T', 'U', 'V', 'W', 'X', 'Y', 'Z']

/-- ASCII model of Python `str.lower` on a single character. -/
def lowChar (c : Char) : Char :=
  if c ∈ upList then Char.ofNat (c.toNat + 32) else c

/-- Single-character action of the replacement in the scripts,
Python `str.replace` applied with arguments underscore and hyphen. -/
def replChar (c : Char) : Char :=
  if c = '_' then '-' else c

/-- Python `str.strip(chars)` on a character list: drop the characters
satisfying `p` from both ends. -/
def pyStripWith (p : Char → Bool) (l : List Char) : List Char :=
  List.rdropWhile p (List.dropWhile p l)

/-- Python `str.strip()` on a `String`. -/
def pyStrip (s : String) : String :=
  ⟨pyStripWith pyIsSpace s.data⟩

/-- Python `str.lower()` on a `String` (ASCII model). -/
def pyLower (s : String) : String :=
  ⟨s.data.map lowChar⟩

/-- True on the characters of the regex class `[>=<~!]` that can start a
version operator by themselves, namely the single-character operators. -/
def opSingle (c : Char) : Bool := c = '=' || c = '>' || c = '<'

/-- True on the characters that start an operator only when followed by
an equals sign. -/
def opPairHead (c : Char) : Bool := c = '!' || c = '~'

/-- The regex character class `[>=<~!]` used by the split-based extractors. -/
def opClass (c : Char) : Bool := opSingle c || opPairHead c

namespace CheckEnv

/-- Embeds `normalize_name` from check_env_ymls_conda_present.py: strip
surrounding whitespace, lower-case, fold underscores to hyphens. -/
def normalize_name (name : String) : String :=
  ⟨((pyStripWith pyIsSpace name.data).map lowChar).map replChar⟩

/-- Position of the leftmost match of the regex
alternation of the eight operators, as searched by `re.search` in
`extract_name`: a position matches when it holds one of the characters
`=`, `>`, `<`, or holds `!` or `~` immediately followed by `=`. -/
def findOp : List Char → Option Nat
  | [] => none
  | c :: rest =>
    if opSingle c then some 0
    else if opPairHead c && rest.head? == some '=' then some 0
    else (findOp rest).map (· + 1)

/-- Embeds `extract_name` from check_env_ymls_conda_present.py: cut the
dependency string at the first `#`, strip whitespace then single and double
quotes, cut at the first version operator, strip and normalize. -/
def extract_name (dep : String) : String :=
  let s := pyStripWith (fun c => c = '"')
    (pyStripWith (fun c => c = '\'')
      (pyStripWith pyIsSpace (dep.data.takeWhile (fun c => c ≠ '#'))))
  let name := match findOp s with
    | some i => pyStripWith pyIsSpace (s.take i)
    | none => pyStripWith pyIsSpace s
  normalize_name ⟨name⟩

/-- The character class `[A-Za-z0-9_-]` of KEY_RE. -/
def isWordChar (c : Char) : Bool :=
  ('A' ≤ c && c ≤ 'Z') || ('a' ≤ c && c ≤ 'z') || c.isDigit || c = '_' || c = '-'

/-- Number of leading whitespace characters,
Python `len(line) - len(line.lstrip())`. -/
def indentOf (l : List Char) : Nat := (l.takeWhile pyIsSpace).length

/-- Match of KEY_RE against a line with zero indentation: a nonempty run
of word characters, optional whitespace, then a colon.  Returns the key.
A line with leading whitespace never takes the key branch because of the
indentation guard in the script, and this function returns `none` on it. -/
def topKeyName (l : List Char) : Option String :=
  let nm := l.takeWhile isWordChar
  if nm ≠ [] ∧ ((l.drop nm.length).dropWhile pyIsSpace).head? = some ':' then
    some ⟨nm⟩
  else none

/-- Match of DEP_RE against a line: optional whitespace, a dash,
at least one whitespace character, then at least one further character.
Returns the matched item with surrounding whitespace stripped, exactly
the value of `dm.group(1).strip()` in the script. -/
def depItem (l : List Char) : Option String :=
  match l.dropWhile pyIsSpace with
  | '-' :: c :: rest =>
    if pyIsSpace c ∧ rest ≠ [] then some ⟨pyStripWith pyIsSpace rest⟩ else none
  | _ => none

/-- Scanner state of `parse_conda_deps_only`. -/
structure ScanState where
  deps : Finset String
  inDeps : Bool
  inPip : Bool
  pipIndent : Option Nat

/-- Add an extracted dependency name to the state when it is nonempty. -/
def addDep (st : ScanState) (item : String) : ScanState :=
  let name := extract_name item
  if name ≠ "" then { st with deps := insert name st.deps } else st

/-- One loop iteration of `parse_conda_deps_only` over a single line. -/
def condaStep (st : ScanState) (line : String) : ScanState :=
  let l := line.data
  if pyStripWith pyIsSpace l = [] ∨ (l.dropWhile pyIsSpace).head? = some '#' then st
  else
    match (if indentOf l = 0 then topKeyName l else none) with
    | some key =>
      if key = "dependencies" then
        { st with inDeps := true, inPip := false, pipIndent := none }
      else
        { st with inDeps := false, inPip := false, pipIndent := none }
    | none =>
      if st.inDeps = false then st
      else
        match depItem l with
        | none => st
        | some item =>
          if item = "pip:" then
            { st with inPip := true, pipIndent := some (indentOf l) }
          else if st.inPip then
            match st.pipIndent with
            | some p =>
              if indentOf l ≤ p then
                addDep { st with inPip := false, pipIndent := none } item
              else st
            | none => st
          else addDep st item

/-- Embeds `parse_conda_deps_only`: scan the lines, collect extracted
dependency names, and finally discard the literal name `pip`. -/
def parse_conda_deps_only (lines : List String) : Finset String :=
  (lines.foldl condaStep ⟨∅, false, false, none⟩).deps.erase "pip"

/-- The sorted missing-package list computed by `main` in
check_env_ymls_conda_present.py: the required names not installed, in
Python `sorted` order (a stable structural sort by the lexicographic
order). -/
def conda_missing (required installed : Finset String) : List String :=
  Finset.sort (· ≤ ·) (required.filter (fun p => p ∉ installed))

/-- Exit code of `main` in check_env_ymls_conda_present.py, as a function
of the parsed env files and the installed-package set: `2` when no file
matched the glob, `1` when packages are missing, `0` otherwise. -/
def mainExit (files : List (List String)) (installed : Finset String) : Nat :=
  if files = [] then 2
  else
    let required := files.foldl (fun acc f => acc ∪ parse_conda_deps_only f) ∅
    if conda_missing required installed ≠ [] then 1 else 0

/-- Exit code read off the final branch of `main` in
check_env_ymls_conda_present.py: `1` when the missing list is nonempty,
`0` otherwise. -/
def exitFromMissing (missing : List String) : Nat :=
  if missing ≠ [] then 1 else 0

end CheckEnv

namespace ValidateP

/-- Embeds the package-name split used by `parse_env_files` in
validate_packages.py (the identical expression appears in
filter_and_validate_packages.py): the segment of the dependency string
before the first character of the regex class `[>=<~!]`, then
`str.strip`.  Unlike the extractor of check_env_ymls_conda_present.py it
performs no lower-casing and no underscore folding. -/
def splitPkgName (dep : String) : String :=
  ⟨pyStripWith pyIsSpace (dep.data.takeWhile (fun c => !opClass c))⟩

/-- A dependency entry of a parsed environment YAML document, as the
scripts inspect it: a plain string, a mapping carrying a `pip` key with a
list of strings, or any other entry (ignored). -/
inductive EnvDep where
  | str (s : String)
  | pipMap (deps : List String)
  | otherMap

/-- A parsed environment YAML document with its optional top-level
`dependencies` key. -/
structure EnvYaml where
  dependencies : Option (List EnvDep)

/-- The body of the try block of `parse_env_files` applied to one parsed
document: collect the split package names of the string entries and of
the entries of `pip` mappings, skipping empty names. -/
def extractFromDoc : Option EnvYaml → Finset String
  | none => ∅
  | some d =>
    match d.dependencies with
    | none => ∅
    | some deps =>
      deps.foldl
        (fun acc dep =>
          match dep with
          | .str s =>
            let n := splitPkgName s
            if n ≠ "" then insert n acc else acc
          | .pipMap l =>
            l.foldl (fun a p =>
              let n := splitPkgName p
              if n ≠ "" then insert n a else a) acc
          | .otherMap => acc) ∅

/-- One iteration of the loop of `parse_env_files`: a well-parsed file
contributes its extracted package set under its file name; a file whose
YAML load raised an error contributes one diagnostic line on standard
error and no mapping entry, and the loop continues. -/
def parseEnvStep (acc : List (String × Finset String) × List String)
    (file : String × Except String (Option EnvYaml)) :
    List (String × Finset String) × List String :=
  match file.2 with
  | .ok d => (acc.1 ++ [(file.1, extractFromDoc d)], acc.2)
  | .error e => (acc.1, acc.2 ++ ["Error parsing " ++ file.1 ++ ": " ++ e])

/-- Embeds `parse_env_files` from validate_packages.py over the already
loaded YAML results: the mapping from file name to package set, paired
with the diagnostic lines printed to standard error. -/
def parse_env_files (files : List (String × Except String (Option EnvYaml))) :
    List (String × Finset String) × List String :=
  files.foldl parseEnvStep ([], [])

/-- Embeds `parse_pinned_packages`: for every non-comment, nonempty line
take the part before the first equals sign, stripped. -/
def parse_pinned_packages (lines : List String) : Finset String :=
  lines.foldl
    (fun acc line =>
      let l := pyStripWith pyIsSpace line.data
      if l = [] ∨ l.head? = some '#' then acc
      else
        let n := pyStripWith pyIsSpace (l.takeWhile (fun c => c ≠ '='))
        if n ≠ [] then insert (⟨n⟩ : String) acc else acc) ∅

/-- The comparator of `main` in validate_packages.py,
`missing_packages = all_env_packages - pinned_packages`. -/
def missingPackages (allEnv pinned : Finset String) : Finset String :=
  allEnv \ pinned

/-- Exit code read off the final branch of `main` in validate_packages.py:
`1` when the missing set is nonempty, `0` otherwise. -/
def exitFromMissing (missing : Finset String) : Nat :=
  if missing ≠ ∅ then 1 else 0

/-- Exit code of `main` in validate_packages.py as a function of the
loaded env files and the pinned manifest lines: `0` with only a warning
when no env file entry was produced (in particular when no file matched
the glob), `1` when packages are missing, `0` otherwise. -/
def mainExit (files : List (String × Except String (Option EnvYaml)))
    (pinnedLines : List String) : Nat :=
  let pbf := (parse_env_files files).1
  if pbf = [] then 0
  else
    let pinned := parse_pinned_packages pinnedLines
    let allEnv := pbf.foldl (fun acc p => acc ∪ p.2) ∅
    exitFromMissing (missingPackages allEnv pinned)

end ValidateP

namespace ValidateR

/-- Exit code read off the final branch of `main` in
validate_r_packages.py: both branches call `sys.exit(0)` so that the
enclosing workflow can continue to open a pull request. -/
def exitFromMissing (missing : Finset String) : Nat :=
  if missing = ∅ then 0 else 0

end ValidateR

/-- Decides whether `needle` occurs as a contiguous run inside the second
list, the model of the Python substring test `x in s`. -/
def isSub (needle : List Char) : List Char → Bool
  | [] => needle.isEmpty
  | c :: t => needle.isPrefixOf (c :: t) || isSub needle t

namespace FilterV

/-- A Python dict from package name to its literal manifest line, as an
insertion-ordered association list with unique keys. -/
abbrev Dict := List (String × String)

/-- Key list of a dict in insertion order. -/
def keys (d : Dict) : List String := d.map Prod.fst

/-- Python dict assignment `d[k] = v`: replace the value in place when
the key is present, append the pair otherwise. -/
def dinsert (d : Dict) (k v : String) : Dict :=
  if k ∈ keys d then
    d.map (fun p => if p.1 = k then (k, v) else p)
  else d ++ [(k, v)]

/-- Value of the dict at a key, with an irrelevant default; it is only
applied at keys present in the dict. -/
def lookupD (d : Dict) (k : String) : String := (d.lookup k).getD ""

/-- The keyword test of `read_pinned_packages` on a stripped header
candidate line: the lower-cased line contains one of the phrases
`packages from`, `feedstock`, `environment`. -/
def hasKw (s : List Char) : Bool :=
  let low := s.map lowChar
  isSub "packages from".data low || isSub "feedstock".data low ||
    isSub "environment".data low

/-- The package-line test of `read_pinned_packages`: the stripped line
holds an equals sign and does not start with a hash. -/
def isPkgLine (line : String) : Bool :=
  let s := pyStripWith pyIsSpace line.data
  s.contains '=' && !(s.head? == some '#')

/-- Name under which `read_pinned_packages` stores a package line: the
stripped part of the stripped line before the first equals sign. -/
def pkgNameOf (line : String) : String :=
  ⟨pyStripWith pyIsSpace
    ((pyStripWith pyIsSpace line.data).takeWhile (fun c => c ≠ '='))⟩

/-- Loop state of `read_pinned_packages`. -/
structure ReadSt where
  dict : Dict
  header : List String
  inHeader : Bool

/-- One loop iteration of `read_pinned_packages` over a single line;
`isPkgLine` and `pkgNameOf` are the tests spelled inline in the loop
body of the script. -/
def readStep (st : ReadSt) (line : String) : ReadSt :=
  let s := pyStripWith pyIsSpace line.data
  if isPkgLine line then
    let n : String := pkgNameOf line
    { st with
      inHeader := false,
      dict := if n ≠ "" then dinsert st.dict n line else st.dict }
  else if st.inHeader ∧ (s.head? = some '#' ∨ s = []) then
    if hasKw s then st else { st with header := st.header ++ [line] }
  else st

/-- Embeds `read_pinned_packages` over the lines of the manifest file:
the dict from package name to its full literal line, and the retained
leading header lines that carry none of the section keywords. -/
def read_pinned_packages (lines : List String) : Dict × List String :=
  let st := lines.foldl readStep ⟨[], [], true⟩
  (st.dict, st.header)

/-- First section label written by `write_filtered_packages`. -/
def label1 : String := "# Packages from pangeo-notebook feedstock"

/-- Second section label written by `write_filtered_packages`. -/
def label2 : String := "# Packages from pangeo-dask feedstock"

/-- Third section label written by `write_filtered_packages`. -/
def label3 : String := "# Other packages from py-rocket-base environment.yaml"

/-- Fourth section label written by `write_filtered_packages`. -/
def label4 : String := "# Packages from environment/env-*.yml files"

/-- The keys of a dict ordered by Python `sorted`: a stable sort by the
lexicographic order on strings (all stable sorts agree, so a structural
insertion sort stands in for the Python sort). -/
def sortedKeys (d : Dict) : List String :=
  List.insertionSort (· ≤ ·) (keys d)

/-- The entry lines of one output section in sorted key order. -/
def sectionLines (d : Dict) : List String :=
  (sortedKeys d).map (lookupD d)

/-- One labeled output section of `write_filtered_packages`: nothing when
the dict is empty, otherwise a blank line (the leading newline of the
section header write), the label line, and the entry lines. -/
def sectionOut (label : String) (d : Dict) : List String :=
  if d = [] then [] else "" :: label :: sectionLines d

/-- Embeds `write_filtered_packages`: the retained header lines verbatim
followed by the four labeled sections, each written only when its dict is
nonempty. -/
def write_filtered_packages (header : List String)
    (d1 d2 d3 d4 : Dict) : List String :=
  header ++ sectionOut label1 d1 ++ sectionOut label2 d2 ++
    sectionOut label3 d3 ++ sectionOut label4 d4

/-- The filtering loops of `main`: for every name of the given collection
keep the pinned line of that name when present.  The Python loop ranges
over a set whose iteration order is unspecified; the order of the name
list is irrelevant to the written file because the writer sorts keys. -/
def filterDict (names : List String) (pinned : Dict) : Dict :=
  names.foldl
    (fun acc n =>
      match pinned.lookup n with
      | some v => dinsert acc n v
      | none => acc) []

/-- One full read-then-rewrite pass of filter_and_validate_packages.py
over the pinned manifest file, given the four package-name collections. -/
def runOut (s1 s2 s3 s4 : List String) (lines : List String) : List String :=
  let r := read_pinned_packages lines
  write_filtered_packages r.2 (filterDict s1 r.1) (filterDict s2 r.1)
    (filterDict s3 r.1) (filterDict s4 r.1)

/-- Exit code read off the final branch of `main` in
filter_and_validate_packages.py: both branches call `sys.exit(0)` so that
the enclosing workflow can continue to open a pull request. -/
def exitFromMissing (missing : Finset String) : Nat :=
  if missing = ∅ then 0 else 0

end FilterV

/-- The four validation script variants of .github/scripts. -/
inductive ScriptVariant where
  | validatePackages
  | filterAndValidate
  | validateR
  | checkEnvYmls
deriving DecidableEq

/-- The exit status of each script variant as a function of its
missing-package set, read off the final branch of each main function;
check_env_ymls_conda_present.py branches on its sorted missing list. -/
def variantExit : ScriptVariant → Finset String → Nat
  | .validatePackages, m => ValidateP.exitFromMissing m
  | .filterAndValidate, m => FilterV.exitFromMissing m
  | .validateR, m => ValidateR.exitFromMissing m
  | .checkEnvYmls, m => CheckEnv.exitFromMissing (Finset.sort (· ≤ ·) m)

namespace FilterV

/-- Modelled from the specification wording of the filtered-manifest
rewriter, for comparison with the code: a writer that emits one labeled
section for every input set unconditionally, also for empty ones. -/
def write_filtered_spec (header : List String)
    (d1 d2 d3 d4 : Dict) : List String :=
  header ++ ("" :: label1 :: sectionLines d1) ++ ("" :: label2 :: sectionLines d2) ++
    ("" :: label3 :: sectionLines d3) ++ ("" :: label4 :: sectionLines d4)

/-- Invariant of the dict produced by `read_pinned_packages`: every entry
stores a package line under the name extracted from that very line. -/
def entriesOK (p : Dict) : Prop :=
  ∀ pr ∈ p, isPkgLine pr.2 = true ∧ pkgNameOf pr.2 = pr.1 ∧ pr.1 ≠ ""

/-- Invariant of the header lines kept by `read_pinned_packages`: stripped
they are empty or hash-led, and free of the section keywords. -/
def headerLineOK (line : String) : Prop :=
  ((pyStripWith pyIsSpace line.data).head? = some '#' ∨
    pyStripWith pyIsSpace line.data = []) ∧
  hasKw (pyStripWith pyIsSpace line.data) = false

/-- All lines of a retained header satisfy the header invariant. -/
def headerOK (H : List String) : Prop := ∀ line ∈ H, headerLineOK line

/-- What the reader needs to know about a section label line: it is not a
package line and it carries a section keyword. -/
def labelOK (l : String) : Prop :=
  isPkgLine l = false ∧ hasKw (pyStripWith pyIsSpace l.data) = true

/-- Reinsertion of the entries of one written section during a second
read, in sorted key order. -/
def insertSec (d f : Dict) : Dict :=
  (sortedKeys f).foldl (fun d k => dinsert d k (lookupD f k)) d

/-- The four labeled sections as a list of label and dict pairs. -/
def secList (d1 d2 d3 d4 : Dict) : List (String × Dict) :=
  [(label1, d1), (label2, d2), (label3, d3), (label4, d4)]

/-- Body of the written file, the concatenation of the four sections. -/
def sectionsOut (d1 d2 d3 d4 : Dict) : List String :=
  (secList d1 d2 d3 d4).foldr (fun pr acc => sectionOut pr.1 pr.2 ++ acc) []

end FilterV

theorem lowChar_idem (c : Char) : lowChar (lowChar c) = lowChar c := by
  by_cases h : c ∈ upList
  · fin_cases h <;> decide
  · have hc : lowChar c = c := by rw [lowChar, if_neg h]
    rw [hc, hc]

theorem pyIsSpace_lowChar (c : Char) : pyIsSpace (lowChar c) = pyIsSpace c := by
  by_cases h : c ∈ upList
  · fin_cases h <;> decide
  · rw [lowChar, if_neg h]

theorem lowChar_underscore (c : Char) : lowChar c = '_' → c = '_' := by
  by_cases h : c ∈ upList
  · fin_cases h <;> decide
  · rw [lowChar, if_neg h]; exact id

theorem pyIsSpace_replChar (c : Char) : pyIsSpace (replChar c) = pyIsSpace c := by
  rw [replChar]
  split
  · next h => subst h; decide
  · rfl

theorem replChar_lowChar_key (c : Char) :
    replChar (lowChar (replChar (lowChar c))) = replChar (lowChar c) := by
  by_cases h : lowChar c = '_'
  · have hc : c = '_' := lowChar_underscore c h
    subst hc; decide
  · have h2 : replChar (lowChar c) = lowChar c := by rw [replChar, if_neg h]
    rw [h2, lowChar_idem, h2]

theorem rdropWhile_map (p : Char → Bool) (f : Char → Char) (l : List Char)
    (h : ∀ c, p (f c) = p c) :
    List.rdropWhile p (l.map f) = (List.rdropWhile p l).map f := by
  have hpf : (p ∘ f) = p := funext h
  rw [List.rdropWhile, List.rdropWhile, ← List.map_reverse, List.dropWhile_map,
    hpf, List.map_reverse]

theorem pyStripWith_map (p : Char → Bool) (f : Char → Char) (l : List Char)
    (h : ∀ c, p (f c) = p c) :
    pyStripWith p (l.map f) = (pyStripWith p l).map f := by
  have hpf : (p ∘ f) = p := funext h
  rw [pyStripWith, pyStripWith, List.dropWhile_map, hpf, rdropWhile_map p f _ h]

theorem dropWhile_pyStripWith (p : Char → Bool) (l : List Char) :
    List.dropWhile p (pyStripWith p l) = pyStripWith p l := by
  rcases hs : pyStripWith p l with _ | ⟨c, t⟩
  · rfl
  · have hpre : pyStripWith p l <+: List.dropWhile p l := List.rdropWhile_prefix p _
    rw [hs] at hpre
    obtain ⟨r, hr⟩ := hpre
    have hq : List.dropWhile p l = c :: (t ++ r) := by rw [← hr]; simp
    have hne : List.dropWhile p l ≠ [] := by
      rw [hq]; exact List.cons_ne_nil _ _
    have hpc : p c = false := by
      have h3 := List.head_dropWhile_not p l hne
      simp only [hq, List.head_cons] at h3
      exact h3
    simp [List.dropWhile_cons, hpc]

theorem pyStripWith_idem (p : Char → Bool) (l : List Char) :
    pyStripWith p (pyStripWith p l) = pyStripWith p l := by
  rw [pyStripWith, dropWhile_pyStripWith, pyStripWith,
    List.rdropWhile_idempotent]

namespace CheckEnv

theorem normalize_name_idem (s : String) :
    normalize_name (normalize_name s) = normalize_name s := by
  have key : pyStripWith pyIsSpace
      (((pyStripWith pyIsSpace s.data).map lowChar).map replChar) =
      ((pyStripWith pyIsSpace s.data).map lowChar).map replChar := by
    rw [pyStripWith_map pyIsSpace replChar _ pyIsSpace_replChar,
      pyStripWith_map pyIsSpace lowChar _ pyIsSpace_lowChar, pyStripWith_idem]
  have hrep : normalize_name (normalize_name s) =
      ⟨((pyStripWith pyIsSpace
        (((pyStripWith pyIsSpace s.data).map lowChar).map replChar)).map
          lowChar).map replChar⟩ := rfl
  rw [hrep, key]
  show String.mk _ = String.mk _
  congr 1
  simp only [List.map_map]
  exact List.map_congr_left fun c _ => by
    simp only [Function.comp_apply]
    exact replChar_lowChar_key c

end CheckEnv

theorem sort_ne_nil_iff (m : Finset String) :
    Finset.sort (· ≤ ·) m ≠ [] ↔ m ≠ ∅ := by
  constructor
  · intro h hm
    subst hm
    exact h (Finset.sort_empty _)
  · intro hm hs
    apply hm
    have hc : m.card = 0 := by
      rw [← Finset.length_sort (α := String) (· ≤ ·), hs]
      rfl
    exact Finset.card_eq_zero.mp hc

/-- C2: the comparator result, missing equals required minus ground
truth, is empty exactly when every element of the required set is an
element of the ground-truth set; stated both for the set difference of
validate_packages.py and for the sorted missing list of
check_env_ymls_conda_present.py. -/
theorem missing_empty_iff_subset (R G : Finset String) :
    (ValidateP.missingPackages R G = ∅ ↔ ∀ x ∈ R, x ∈ G) ∧
    (CheckEnv.conda_missing R G = [] ↔ ∀ x ∈ R, x ∈ G) := by
  constructor
  · rw [ValidateP.missingPackages, Finset.sdiff_eq_empty_iff_subset]
    exact ⟨fun h x hx => h hx, fun h x hx => h x hx⟩
  · rw [CheckEnv.conda_missing]
    constructor
    · intro h x hx
      by_contra hnx
      have hmem : x ∈ Finset.filter (fun p => p ∉ G) R :=
        Finset.mem_filter.mpr ⟨hx, hnx⟩
      have hmem2 := (Finset.mem_sort (α := String) (· ≤ ·)).mpr hmem
      rw [h] at hmem2
      exact absurd hmem2 (List.not_mem_nil x)
    · intro h
      have hf : Finset.filter (fun p => p ∉ G) R = ∅ := by
        apply Finset.eq_empty_of_forall_not_mem
        intro x hx
        obtain ⟨h1, h2⟩ := Finset.mem_filter.mp hx
        exact h2 (h x h1)
      rw [hf]
      exact Finset.sort_empty _

/-- C8 counterexample: normalization folds underscores to hyphens rather
than erasing them, so the normalizations of numpy and num_py are the
distinct strings numpy and num-py, refuting the claimed equality chain at
these inputs. -/
theorem normalize_counterexample :
    CheckEnv.normalize_name "numpy" ≠ CheckEnv.normalize_name "num_py" := by decide

/-- C8 amended: normalization is idempotent; it is case-insensitive, so
NumPy and numpy normalize alike, and folds underscores to hyphens, so
num_py and num-py normalize alike; but num_py does not normalize to the
same string as numpy. -/
theorem normalize_idem_and_insensitive :
    (∀ s, CheckEnv.normalize_name (CheckEnv.normalize_name s) =
      CheckEnv.normalize_name s) ∧
    CheckEnv.normalize_name "NumPy" = CheckEnv.normalize_name "numpy" ∧
    CheckEnv.normalize_name "num_py" = CheckEnv.normalize_name "num-py" :=
  ⟨CheckEnv.normalize_name_idem, by decide, by decide⟩

/-- C3 counterexample: on the concrete missing set holding scipy the
conda-presence checker also exits with status 1, so the plain validator
is not the only variant exiting 1 on validation failure. -/
theorem exit_code_counterexample :
    ¬ (∀ v : ScriptVariant, variantExit v {"scipy"} = 1 ↔ v = .validatePackages) := by
  intro h
  have h1 : variantExit .checkEnvYmls {"scipy"} = 1 := by
    show CheckEnv.exitFromMissing (Finset.sort (· ≤ ·) {"scipy"}) = 1
    rw [Finset.sort_singleton]
    decide
  have h2 := (h .checkEnvYmls).mp h1
  exact absurd h2 (by decide)

/-- C3 amended: every variant exits 0 when the missing set is empty; on a
nonempty missing set exactly two of the four variants exit with status 1,
the plain validator and the conda-presence checker, while the
filter-and-validate and the R variants exit 0 so that the enclosing
workflow can proceed to open a pull request. -/
theorem exit_codes_by_variant (v : ScriptVariant) (m : Finset String) :
    variantExit v m =
      if m = ∅ then 0
      else if v = .validatePackages ∨ v = .checkEnvYmls then 1 else 0 := by
  have hsort := sort_ne_nil_iff m
  by_cases hm : m = ∅ <;>
    cases v <;>
      simp [variantExit, ValidateP.exitFromMissing, FilterV.exitFromMissing,
        ValidateR.exitFromMissing, CheckEnv.exitFromMissing, hm, hsort.mpr,
        Finset.sort_empty]
  · exact fun h => absurd (hsort.mpr hm) (by simp [h])

theorem extract_name_image (dep : String) :
    ∃ y, CheckEnv.extract_name dep = CheckEnv.normalize_name y := ⟨_, rfl⟩

theorem extract_name_normalized (dep : String) :
    CheckEnv.normalize_name (CheckEnv.extract_name dep) = CheckEnv.extract_name dep := by
  obtain ⟨y, hy⟩ := extract_name_image dep
  rw [hy, CheckEnv.normalize_name_idem]

theorem addDep_deps (st : CheckEnv.ScanState) (item : String) :
    (CheckEnv.addDep st item).deps = st.deps ∨
    (CheckEnv.addDep st item).deps =
      insert (CheckEnv.extract_name item) st.deps := by
  rw [CheckEnv.addDep]
  split
  · exact Or.inr rfl
  · exact Or.inl rfl

theorem condaStep_deps (st : CheckEnv.ScanState) (line : String) :
    (CheckEnv.condaStep st line).deps = st.deps ∨
    ∃ item, (CheckEnv.condaStep st line).deps =
      insert (CheckEnv.extract_name item) st.deps := by
  rw [CheckEnv.condaStep]
  split
  · exact Or.inl rfl
  · split
    · split <;> exact Or.inl rfl
    · split
      · exact Or.inl rfl
      · split
        · exact Or.inl rfl
        · split
          · exact Or.inl rfl
          · split
            · split
              · split
                · rcases addDep_deps _ _ with h | h
                  · rw [h]; exact Or.inl rfl
                  · rw [h]; exact Or.inr ⟨_, rfl⟩
                · exact Or.inl rfl
              · exact Or.inl rfl
            · rcases addDep_deps _ _ with h | h
              · rw [h]; exact Or.inl rfl
              · rw [h]; exact Or.inr ⟨_, rfl⟩

theorem parse_deps_inv (lines : List String) (x : String)
    (hx : x ∈ CheckEnv.parse_conda_deps_only lines) :
    CheckEnv.normalize_name x = x ∧ x ≠ "pip" := by
  have key : ∀ (ls : List String) (st : CheckEnv.ScanState),
      (∀ y ∈ st.deps, CheckEnv.normalize_name y = y) →
      ∀ y ∈ (ls.foldl CheckEnv.condaStep st).deps, CheckEnv.normalize_name y = y := by
    intro ls
    induction ls with
    | nil => exact fun st h => h
    | cons l l2 ih =>
      intro st h
      apply ih
      intro y hy
      rcases condaStep_deps st l with h1 | ⟨item, h1⟩
      · rw [h1] at hy
        exact h y hy
      · rw [h1] at hy
        rcases Finset.mem_insert.mp hy with h2 | h2
        · rw [h2]
          exact extract_name_normalized item
        · exact h y h2
  rw [CheckEnv.parse_conda_deps_only] at hx
  have h1 := Finset.mem_of_mem_erase hx
  have h2 := Finset.ne_of_mem_erase hx
  exact ⟨key lines _ (fun y hy => absurd hy (Finset.not_mem_empty y)) x h1, h2⟩

/-- C10: every element of the set returned by parse_conda_deps_only in
check_env_ymls_conda_present.py is a fixed point of normalize_name
(entirely lower-case with underscores folded away), and the literal name
pip is never an element, whatever the input lines. -/
theorem parse_conda_deps_only_normalized (lines : List String) (x : String)
    (hx : x ∈ CheckEnv.parse_conda_deps_only lines) :
    CheckEnv.normalize_name x = x ∧ x ≠ "pip" :=
  parse_deps_inv lines x hx

/-- C10 witness: a concrete file on which the extractor returns numpy,
which the theorem shows normalized and distinct from pip. -/
theorem parse_conda_deps_only_normalized_witness :
    CheckEnv.normalize_name "numpy" = "numpy" ∧ "numpy" ≠ "pip" :=
  parse_conda_deps_only_normalized ["dependencies:", "- numpy"] "numpy" (by decide)

theorem parseEnvFiles_shift (files : List (String × Except String (Option ValidateP.EnvYaml)))
    (x : List (String × Finset String)) (y : List String) :
    files.foldl ValidateP.parseEnvStep (x, y) =
      (x ++ (ValidateP.parse_env_files files).1,
       y ++ (ValidateP.parse_env_files files).2) := by
  induction files generalizing x y with
  | nil => simp [ValidateP.parse_env_files]
  | cons f fs ih =>
    obtain ⟨n, r⟩ := f
    cases r with
    | ok d =>
      have hstep : ∀ a b, ValidateP.parseEnvStep (a, b) (n, Except.ok d) =
          (a ++ [(n, ValidateP.extractFromDoc d)], b) := fun a b => rfl
      rw [List.foldl_cons, hstep, ih]
      rw [show ValidateP.parse_env_files ((n, Except.ok d) :: fs) =
        fs.foldl ValidateP.parseEnvStep ([(n, ValidateP.extractFromDoc d)], []) from rfl]
      rw [show ([(n, ValidateP.extractFromDoc d)], ([] : List String)) =
        (([] : List (String × Finset String)) ++ [(n, ValidateP.extractFromDoc d)],
         ([] : List String) ++ []) from rfl, ih]
      simp
    | error e =>
      have hstep : ∀ a b, ValidateP.parseEnvStep (a, b) (n, Except.error e) =
          (a, b ++ ["Error parsing " ++ n ++ ": " ++ e]) := fun a b => rfl
      rw [List.foldl_cons, hstep, ih]
      rw [show ValidateP.parse_env_files ((n, Except.error e) :: fs) =
        fs.foldl ValidateP.parseEnvStep ([], ["Error parsing " ++ n ++ ": " ++ e]) from rfl]
      rw [show (([] : List (String × Finset String)),
          ["Error parsing " ++ n ++ ": " ++ e]) =
        (([] : List (String × Finset String)) ++ [],
         ([] : List String) ++ ["Error parsing " ++ n ++ ": " ++ e]) from rfl, ih]
      simp

/-- C6: a file whose YAML load raises an error contributes exactly one
diagnostic line reported to standard error, contributes no package
mapping entry (hence an empty set of names to every union over the
results), and extraction continues over the files before and after it,
which are processed exactly as they would be without the malformed
file. -/
theorem malformed_yaml_skipped
    (pre post : List (String × Except String (Option ValidateP.EnvYaml)))
    (n e : String) :
    (ValidateP.parse_env_files (pre ++ (n, Except.error e) :: post)).1 =
      (ValidateP.parse_env_files (pre ++ post)).1 ∧
    (ValidateP.parse_env_files (pre ++ (n, Except.error e) :: post)).2 =
      (ValidateP.parse_env_files pre).2 ++
        ("Error parsing " ++ n ++ ": " ++ e) :: (ValidateP.parse_env_files post).2 := by
  have hpre : ∀ rest, ValidateP.parse_env_files (pre ++ rest) =
      rest.foldl ValidateP.parseEnvStep (ValidateP.parse_env_files pre) := by
    intro rest
    rw [ValidateP.parse_env_files, List.foldl_append]
    rfl
  have hsplit : ValidateP.parse_env_files pre =
      ((ValidateP.parse_env_files pre).1, (ValidateP.parse_env_files pre).2) := rfl
  constructor
  · rw [hpre, hpre, List.foldl_cons, hsplit]
    rw [show ValidateP.parseEnvStep
        ((ValidateP.parse_env_files pre).1, (ValidateP.parse_env_files pre).2)
        (n, Except.error e) =
      ((ValidateP.parse_env_files pre).1,
       (ValidateP.parse_env_files pre).2 ++ ["Error parsing " ++ n ++ ": " ++ e]) from rfl]
    rw [parseEnvFiles_shift, parseEnvFiles_shift]
  · rw [hpre, List.foldl_cons, hsplit]
    rw [show ValidateP.parseEnvStep
        ((ValidateP.parse_env_files pre).1, (ValidateP.parse_env_files pre).2)
        (n, Except.error e) =
      ((ValidateP.parse_env_files pre).1,
       (ValidateP.parse_env_files pre).2 ++ ["Error parsing " ++ n ++ ": " ++ e]) from rfl]
    rw [parseEnvFiles_shift]
    simp

/-- C7 counterexample: with no input files the plain validator exits with
status 0 after its warning, not with the claimed status 2. -/
theorem no_files_counterexample : ValidateP.mainExit [] [] ≠ 2 := by decide

/-- C7 amended: when no input files match the glob,
check_env_ymls_conda_present.py exits with status 2, while
validate_packages.py prints a warning and exits with status 0. -/
theorem no_files_exit_codes (installed : Finset String) (pinnedLines : List String) :
    CheckEnv.mainExit [] installed = 2 ∧ ValidateP.mainExit [] pinnedLines = 0 :=
  ⟨rfl, rfl⟩

theorem takeWhile_all_append (p : Char → Bool) (l m : List Char)
    (h : ∀ c ∈ l, p c = true) :
    List.takeWhile p (l ++ m) = l ++ List.takeWhile p m := by
  induction l with
  | nil => simp
  | cons c t ih =>
    rw [List.cons_append, List.takeWhile_cons, h c (List.mem_cons_self c t),
      ih (fun d hd => h d (List.mem_cons_of_mem c hd))]
    rfl

theorem pyStripWith_eq_self (p : Char → Bool) (l : List Char)
    (h : ∀ c ∈ l, p c = false) : pyStripWith p l = l := by
  have h1 : List.dropWhile p l = l := by
    cases l with
    | nil => rfl
    | cons c t =>
      rw [List.dropWhile_cons, h c (List.mem_cons_self c t)]
      rfl
  rw [pyStripWith, h1]
  apply List.rdropWhile_eq_self_iff.mpr
  intro hl
  rw [h _ (List.getLast_mem hl)]
  exact Bool.false_ne_true

theorem rdropWhile_append_last (p : Char → Bool) (A w : List Char) (hA : A ≠ [])
    (hl : p (A.getLast hA) = false) :
    List.rdropWhile p (A ++ w) = A ++ List.rdropWhile p w := by
  rw [List.rdropWhile, List.reverse_append, List.dropWhile_append]
  split
  · next hemp =>
    rw [List.isEmpty_iff] at hemp
    have h2 : List.rdropWhile p w = [] := by
      rw [List.rdropWhile, hemp, List.reverse_nil]
    rcases hrevc : A.reverse with _ | ⟨c, t⟩
    · exact absurd (List.reverse_eq_nil_iff.mp hrevc) hA
    · have hc : c = A.getLast hA := by
        have hrev : A.reverse.head? = some (A.getLast hA) := by
          rw [List.head?_reverse, List.getLast?_eq_getLast A hA]
        rw [hrevc] at hrev
        exact Option.some_inj.mp hrev
      have hpc : p c = false := by rw [hc]; exact hl
      have h3 : List.dropWhile p (c :: t) = c :: t := by
        simp [List.dropWhile_cons, hpc]
      rw [h2, List.append_nil, h3]
      rw [← hrevc, List.reverse_reverse]
  · next hemp =>
    rw [List.reverse_append, List.reverse_reverse]
    rfl

theorem pyStripWith_append_mid (p : Char → Bool) (c0 : Char) (A0 w : List Char)
    (hhead : p c0 = false)
    (hlast : p ((c0 :: A0).getLast (List.cons_ne_nil c0 A0)) = false) :
    pyStripWith p ((c0 :: A0) ++ w) = (c0 :: A0) ++ List.rdropWhile p w := by
  rw [pyStripWith]
  have h1 : List.dropWhile p ((c0 :: A0) ++ w) = (c0 :: A0) ++ w := by
    rw [List.cons_append]
    simp [List.dropWhile_cons, hhead]
  rw [h1]
  exact rdropWhile_append_last p (c0 :: A0) w (List.cons_ne_nil c0 A0) hlast

theorem findOp_append (l m : List Char) (h : ∀ c ∈ l, opClass c = false) :
    CheckEnv.findOp (l ++ m) = (CheckEnv.findOp m).map (· + l.length) := by
  induction l with
  | nil => simp
  | cons c t ih =>
    have hc := h c (List.mem_cons_self c t)
    have hs : opSingle c = false := by
      rw [opClass] at hc
      exact (Bool.or_eq_false_iff.mp hc).1
    have hp : opPairHead c = false := by
      rw [opClass] at hc
      exact (Bool.or_eq_false_iff.mp hc).2
    rw [List.cons_append, CheckEnv.findOp, hs, hp]
    simp only [Bool.false_eq_true, if_false, Bool.false_and]
    rw [ih (fun d hd => h d (List.mem_cons_of_mem c hd))]
    cases CheckEnv.findOp m with
    | none => rfl
    | some i =>
      simp [Nat.add_assoc, Nat.add_comm 1 t.length]

theorem extract_name_versioned_gen (name op ver : String)
    (hname : name.data ≠ [])
    (hclean : ∀ c ∈ name.data, pyIsSpace c = false ∧ opClass c = false ∧
      c ≠ '#' ∧ c ≠ '\'' ∧ c ≠ '"')
    (hopne : op.data ≠ [])
    (hophash : ∀ c ∈ op.data, c ≠ '#')
    (hlast1 : pyIsSpace (op.data.getLast hopne) = false)
    (hlast2 : op.data.getLast hopne ≠ '\'')
    (hlast3 : op.data.getLast hopne ≠ '"')
    (hfind : ∀ u, CheckEnv.findOp (op.data ++ u) = some 0) :
    CheckEnv.extract_name (name ++ op ++ ver) = CheckEnv.normalize_name name := by
  rcases hnd : name.data with _ | ⟨c0, A0⟩
  · exact absurd hnd hname
  have hcleanA : ∀ c ∈ c0 :: A0, pyIsSpace c = false ∧ opClass c = false ∧
      c ≠ '#' ∧ c ≠ '\'' ∧ c ≠ '"' := by
    rw [← hnd]; exact hclean
  have hdata : (name ++ op ++ ver).data = (c0 :: (A0 ++ op.data)) ++ ver.data := by
    show (name.data ++ op.data) ++ ver.data = _
    rw [hnd]
    rfl
  -- the comment cut
  set w := List.takeWhile (fun c => c ≠ '#') ver.data with hw
  have hT : (name ++ op ++ ver).data.takeWhile (fun c => c ≠ '#') =
      (c0 :: (A0 ++ op.data)) ++ w := by
    rw [hdata]
    exact takeWhile_all_append _ _ _ (by
      intro c hc
      rcases List.mem_cons.mp hc with rfl | hc2
      · exact decide_eq_true (hcleanA c (List.mem_cons_self c A0)).2.2.1
      · rcases List.mem_append.mp hc2 with h3 | h3
        · exact decide_eq_true (hcleanA c (List.mem_cons_of_mem c0 h3)).2.2.1
        · exact decide_eq_true (hophash c h3))
  -- the last character of the head block is the last character of op
  have hglast : ∀ h2 : (c0 :: (A0 ++ op.data)) ≠ [],
      (c0 :: (A0 ++ op.data)).getLast h2 = op.data.getLast hopne := by
    intro h2
    show ((c0 :: A0) ++ op.data).getLast h2 = op.data.getLast hopne
    exact List.getLast_append_of_ne_nil hopne
  -- stripping whitespace
  have hS1 : pyStripWith pyIsSpace ((c0 :: (A0 ++ op.data)) ++ w) =
      (c0 :: (A0 ++ op.data)) ++ List.rdropWhile pyIsSpace w := by
    apply pyStripWith_append_mid
    · exact (hcleanA c0 (List.mem_cons_self c0 A0)).1
    · rw [hglast]
      exact hlast1
  -- stripping single quotes
  have hS2 : pyStripWith (fun c => c = '\'') ((c0 :: (A0 ++ op.data)) ++
        List.rdropWhile pyIsSpace w) =
      (c0 :: (A0 ++ op.data)) ++
        List.rdropWhile (fun c => c = '\'') (List.rdropWhile pyIsSpace w) := by
    apply pyStripWith_append_mid
    · exact decide_eq_false (hcleanA c0 (List.mem_cons_self c0 A0)).2.2.2.1
    · rw [hglast]
      exact decide_eq_false hlast2
  -- stripping double quotes
  have hS3 : pyStripWith (fun c => c = '"') ((c0 :: (A0 ++ op.data)) ++
        List.rdropWhile (fun c => c = '\'') (List.rdropWhile pyIsSpace w)) =
      (c0 :: (A0 ++ op.data)) ++
        List.rdropWhile (fun c => c = '"')
          (List.rdropWhile (fun c => c = '\'') (List.rdropWhile pyIsSpace w)) := by
    apply pyStripWith_append_mid
    · exact decide_eq_false (hcleanA c0 (List.mem_cons_self c0 A0)).2.2.2.2
    · rw [hglast]
      exact decide_eq_false hlast3
  set u := List.rdropWhile (fun c => c = '"')
    (List.rdropWhile (fun c => c = '\'') (List.rdropWhile pyIsSpace w)) with hu
  -- the operator search lands at the end of the name
  have hfindS : CheckEnv.findOp ((c0 :: (A0 ++ op.data)) ++ u) = some name.data.length := by
    rw [show (c0 :: (A0 ++ op.data)) ++ u = (c0 :: A0) ++ (op.data ++ u) by simp]
    rw [findOp_append _ _ (fun c hc => (hcleanA c hc).2.1), hfind u]
    simp [hnd]
  -- the taken part is the name
  have htake : ((c0 :: (A0 ++ op.data)) ++ u).take name.data.length = name.data := by
    rw [show (c0 :: (A0 ++ op.data)) ++ u = name.data ++ (op.data ++ u) by rw [hnd]; simp]
    exact List.take_left name.data (op.data ++ u)
  have hstripname : pyStripWith pyIsSpace name.data = name.data :=
    pyStripWith_eq_self _ _ (fun c hc => (hclean c hc).1)
  simp only [CheckEnv.extract_name]
  rw [hT, hS1, hS2, hS3, hfindS]
  dsimp only
  rw [htake, hstripname]

theorem splitPkgName_gen (name tail : String)
    (hclean : ∀ c ∈ name.data, pyIsSpace c = false ∧ opClass c = false)
    (htail : List.takeWhile (fun c => !opClass c) tail.data = []) :
    ValidateP.splitPkgName (name ++ tail) = name := by
  rw [ValidateP.splitPkgName]
  have hd : (name ++ tail).data = name.data ++ tail.data := rfl
  rw [hd, takeWhile_all_append _ _ _ (fun c hc => by
      simp [(hclean c hc).2]),
    htail, List.append_nil,
    pyStripWith_eq_self _ _ (fun c hc => (hclean c hc).1)]

/-- C1 counterexample: on the dependency string NumPy>=1.0 the extractor
shared by validate_packages.py and filter_and_validate_packages.py
returns the raw name NumPy, which differs from its normalization numpy,
so extraction does not yield the normalized name in every variant. -/
theorem extraction_not_normalized_counterexample :
    ValidateP.splitPkgName "NumPy>=1.0" ≠ CheckEnv.normalize_name "NumPy" := by decide

/-- C1 amended: for a dependency string name-operator-version built from
any of the eight supported operators, with a nonempty name free of
whitespace, operator characters, hash and quote characters, the extractor
of check_env_ymls_conda_present.py yields exactly the normalized name,
while the extractor shared by validate_packages.py and
filter_and_validate_packages.py yields the raw name unchanged (hence the
normalized name only when the name is already normalized). -/
theorem versioned_extraction (name op ver : String)
    (hop : op ∈ ["==", ">=", "<=", "!=", "~=", "=", ">", "<"])
    (hname : name.data ≠ [])
    (hclean : ∀ c ∈ name.data, pyIsSpace c = false ∧ opClass c = false ∧
      c ≠ '#' ∧ c ≠ '\'' ∧ c ≠ '"') :
    CheckEnv.extract_name (name ++ op ++ ver) = CheckEnv.normalize_name name ∧
    ValidateP.splitPkgName (name ++ op ++ ver) = name := by
  constructor
  · fin_cases hop <;>
      exact extract_name_versioned_gen name _ ver hname hclean (by decide)
        (by decide) (by decide) (by decide) (by decide)
        (fun u => by
          simp [CheckEnv.findOp, List.head?_cons,
            (by decide : opSingle '=' = true),
            (by decide : opSingle '>' = true),
            (by decide : opSingle '<' = true),
            (by decide : opSingle '!' = false),
            (by decide : opSingle '~' = false),
            (by decide : opPairHead '!' = true),
            (by decide : opPairHead '~' = true),
            (by decide : ((some '=' : Option Char) == some '=') = true)])
  · rw [String.append_assoc]
    fin_cases hop <;>
      exact splitPkgName_gen name _
        (fun c hc => ⟨(hclean c hc).1, (hclean c hc).2.1⟩)
        (by
          simp [List.takeWhile_cons,
            (by decide : (!opClass '=') = false),
            (by decide : (!opClass '>') = false),
            (by decide : (!opClass '<') = false),
            (by decide : (!opClass '!') = false),
            (by decide : (!opClass '~') = false)])

/-- C1 witness: the amended theorem applied at NumPy with operator and
version from the spec example. -/
theorem versioned_extraction_witness :
    CheckEnv.extract_name ("NumPy" ++ ">=" ++ "1.0") =
      CheckEnv.normalize_name "NumPy" ∧
    ValidateP.splitPkgName ("NumPy" ++ ">=" ++ "1.0") = "NumPy" :=
  versioned_extraction "NumPy" ">=" "1.0" (by decide) (by decide) (by decide)

namespace FilterV

theorem lookup_cons_self (a1 a2 : String) (t : Dict) :
    List.lookup a1 ((a1, a2) :: t) = some a2 := by
  simp [List.lookup_cons]

theorem lookup_cons_ne (n a1 a2 : String) (t : Dict) (h : n ≠ a1) :
    List.lookup n ((a1, a2) :: t) = List.lookup n t := by
  have hb : (n == a1) = false := beq_eq_false_iff_ne.mpr h
  simp [List.lookup_cons, hb]

theorem replace_head_eq (k v a2 : String) :
    (if ((k, a2) : String × String).1 = k then (k, v) else (k, a2)) = (k, v) := by
  simp

theorem replace_head_ne (k v a1 a2 : String) (h : a1 ≠ k) :
    (if ((a1, a2) : String × String).1 = k then (k, v) else (a1, a2)) = (a1, a2) := by
  simp [h]

theorem lookup_map_replace_ne (t : Dict) (k v n : String) (hnk : n ≠ k) :
    List.lookup n (t.map (fun p => if p.1 = k then (k, v) else p)) =
      List.lookup n t := by
  induction t with
  | nil => rfl
  | cons a t ih =>
    obtain ⟨a1, a2⟩ := a
    by_cases ha : a1 = k
    · subst ha
      rw [List.map_cons, replace_head_eq,
        lookup_cons_ne n a1 v _ hnk, lookup_cons_ne n a1 a2 _ hnk, ih]
    · rw [List.map_cons, replace_head_ne k v a1 a2 ha]
      by_cases hna : n = a1
      · subst hna
        rw [lookup_cons_self, lookup_cons_self]
      · rw [lookup_cons_ne n a1 a2 _ hna, lookup_cons_ne n a1 a2 _ hna, ih]

theorem lookup_map_replace (d : Dict) (k v n : String) (hk : k ∈ keys d) :
    List.lookup n (d.map (fun p => if p.1 = k then (k, v) else p)) =
      if n = k then some v else List.lookup n d := by
  induction d with
  | nil => exact absurd hk (by simp [keys])
  | cons a t ih =>
    obtain ⟨a1, a2⟩ := a
    by_cases ha : a1 = k
    · subst ha
      rw [List.map_cons, replace_head_eq]
      by_cases hna : n = a1
      · subst hna
        rw [lookup_cons_self, if_pos rfl]
      · rw [lookup_cons_ne n a1 v _ hna, if_neg hna,
          lookup_cons_ne n a1 a2 _ hna, lookup_map_replace_ne t a1 v n hna]
    · have hk2 : k ∈ keys t := by
        rcases List.mem_cons.mp hk with h | h
        · exact absurd h.symm (by simpa [keys] using ha)
        · exact h
      rw [List.map_cons, replace_head_ne k v a1 a2 ha]
      by_cases hna : n = a1
      · subst hna
        rw [lookup_cons_self, if_neg ha, lookup_cons_self]
      · rw [lookup_cons_ne n a1 a2 _ hna, ih hk2]
        by_cases hnk : n = k
        · rw [if_pos hnk, if_pos hnk]
        · rw [if_neg hnk, if_neg hnk, lookup_cons_ne n a1 a2 _ hna]

theorem lookup_append_none (d1 d2 : Dict) (n : String)
    (h : List.lookup n d1 = none) :
    List.lookup n (d1 ++ d2) = List.lookup n d2 := by
  induction d1 with
  | nil => rfl
  | cons a t ih =>
    obtain ⟨a1, a2⟩ := a
    by_cases hna : n = a1
    · subst hna
      rw [lookup_cons_self] at h
      cases h
    · rw [lookup_cons_ne n a1 a2 t hna] at h
      rw [List.cons_append, lookup_cons_ne n a1 a2 _ hna, ih h]

theorem lookup_append_some (d1 d2 : Dict) (n v : String)
    (h : List.lookup n d1 = some v) :
    List.lookup n (d1 ++ d2) = some v := by
  induction d1 with
  | nil => cases h
  | cons a t ih =>
    obtain ⟨a1, a2⟩ := a
    by_cases hna : n = a1
    · subst hna
      rw [lookup_cons_self] at h
      rw [List.cons_append, lookup_cons_self]
      exact h
    · rw [lookup_cons_ne n a1 a2 t hna] at h
      rw [List.cons_append, lookup_cons_ne n a1 a2 _ hna, ih h]

theorem mem_of_lookup (d : Dict) (n w : String)
    (h : List.lookup n d = some w) : (n, w) ∈ d := by
  induction d with
  | nil => cases h
  | cons a t ih =>
    obtain ⟨a1, a2⟩ := a
    by_cases hna : n = a1
    · subst hna
      rw [lookup_cons_self] at h
      cases h
      exact List.mem_cons_self _ _
    · rw [lookup_cons_ne n a1 a2 t hna] at h
      exact List.mem_cons_of_mem _ (ih h)

theorem lookup_eq_none_of_not_mem_keys (d : Dict) (n : String)
    (h : n ∉ keys d) : List.lookup n d = none := by
  cases hl : List.lookup n d with
  | none => rfl
  | some w =>
    exact absurd (List.mem_map_of_mem Prod.fst (mem_of_lookup d n w hl)) h

theorem lookup_of_mem_keys (d : Dict) (n : String) (h : n ∈ keys d) :
    ∃ w, List.lookup n d = some w := by
  cases hl : List.lookup n d with
  | some w => exact ⟨w, rfl⟩
  | none =>
    exfalso
    induction d with
    | nil => exact absurd h (by simp [keys])
    | cons a t ih =>
      obtain ⟨a1, a2⟩ := a
      by_cases hna : n = a1
      · subst hna
        rw [lookup_cons_self] at hl
        cases hl
      · rw [lookup_cons_ne n a1 a2 t hna] at hl
        rcases List.mem_cons.mp h with h2 | h2
        · exact hna h2
        · exact ih h2 hl

theorem lookup_dinsert (d : Dict) (k v n : String) :
    List.lookup n (dinsert d k v) = if n = k then some v else List.lookup n d := by
  rw [dinsert]
  split
  · next hk => exact lookup_map_replace d k v n hk
  · next hk =>
    by_cases hnk : n = k
    · subst hnk
      rw [if_pos rfl, lookup_append_none _ _ _ (lookup_eq_none_of_not_mem_keys d n hk),
        lookup_cons_self]
    · rw [if_neg hnk]
      cases hl : List.lookup n d with
      | some w => rw [lookup_append_some _ _ _ _ hl]
      | none =>
        rw [lookup_append_none _ _ _ hl, lookup_cons_ne n k v [] hnk]
        rfl

theorem mem_dinsert (d : Dict) (k v : String) (pr : String × String)
    (h : pr ∈ dinsert d k v) : pr ∈ d ∨ pr = (k, v) := by
  rw [dinsert] at h
  split at h
  · rcases List.mem_map.mp h with ⟨q, hq, hfq⟩
    by_cases hqk : q.1 = k
    · right
      rw [← hfq, if_pos hqk]
    · left
      rw [← hfq, if_neg hqk]
      exact hq
  · rcases List.mem_append.mp h with h1 | h1
    · exact Or.inl h1
    · exact Or.inr (List.mem_singleton.mp h1)

theorem lookup_filterDict (s : List String) (p : Dict) (n : String) :
    List.lookup n (filterDict s p) =
      if n ∈ s ∧ (List.lookup n p).isSome then List.lookup n p else none := by
  have aux : ∀ acc : Dict,
      List.lookup n (s.foldl (fun acc m => match List.lookup m p with
        | some w => dinsert acc m w
        | none => acc) acc) =
      if n ∈ s ∧ (List.lookup n p).isSome then List.lookup n p
      else List.lookup n acc := by
    induction s with
    | nil => intro acc; simp
    | cons m ms ih =>
      intro acc
      rw [List.foldl_cons, ih]
      by_cases hms : n ∈ ms ∧ (List.lookup n p).isSome
      · rw [if_pos hms, if_pos ⟨List.mem_cons_of_mem m hms.1, hms.2⟩]
      · rw [if_neg hms]
        by_cases hnm : n = m
        · subst hnm
          cases hl : List.lookup n p with
          | some w =>
            rw [if_pos ⟨List.mem_cons_self n ms, rfl⟩]
            show List.lookup n (dinsert acc n w) = some w
            rw [lookup_dinsert, if_pos rfl]
          | none =>
            rw [if_neg (fun hc => by simpa using hc.2)]
        · have hcond : ¬ (n ∈ m :: ms ∧ (List.lookup n p).isSome) := by
            intro hc
            rcases List.mem_cons.mp hc.1 with h2 | h2
            · exact hnm h2
            · exact hms ⟨h2, hc.2⟩
          rw [if_neg hcond]
          cases hl : List.lookup m p with
          | some w =>
            show List.lookup n (dinsert acc m w) = List.lookup n acc
            rw [lookup_dinsert, if_neg hnm]
          | none => rfl
  rw [filterDict]
  have h0 := aux []
  rw [h0]
  rfl

theorem lookup_filterDict_mem (s : List String) (p : Dict) (n v : String)
    (hn : n ∈ s) (hv : List.lookup n p = some v) :
    List.lookup n (filterDict s p) = some v := by
  rw [lookup_filterDict, if_pos ⟨hn, by rw [hv]; rfl⟩, hv]

theorem lookup_filterDict_some (s : List String) (p : Dict) (n w : String)
    (h : List.lookup n (filterDict s p) = some w) :
    n ∈ s ∧ List.lookup n p = some w := by
  rw [lookup_filterDict] at h
  by_cases hc : n ∈ s ∧ (List.lookup n p).isSome
  · rw [if_pos hc] at h
    exact ⟨hc.1, h⟩
  · rw [if_neg hc] at h
    cases h

theorem mem_sectionLines (s : List String) (p : Dict) (n v : String)
    (hn : n ∈ s) (hv : List.lookup n p = some v) :
    v ∈ sectionLines (filterDict s p) := by
  have hf : List.lookup n (filterDict s p) = some v :=
    lookup_filterDict_mem s p n v hn hv
  have hkeys : n ∈ keys (filterDict s p) :=
    List.mem_map_of_mem Prod.fst (mem_of_lookup _ n v hf)
  have hsorted : n ∈ sortedKeys (filterDict s p) :=
    (List.perm_insertionSort (· ≤ ·) (keys (filterDict s p))).mem_iff.mpr hkeys
  have hval : lookupD (filterDict s p) n = v := by
    rw [lookupD, hf]
    rfl
  rw [sectionLines, ← hval]
  exact List.mem_map_of_mem (lookupD (filterDict s p)) hsorted

theorem filterDict_ne_nil (s : List String) (p : Dict) (n v : String)
    (hn : n ∈ s) (hv : List.lookup n p = some v) : filterDict s p ≠ [] := by
  intro hnil
  have hf : List.lookup n (filterDict s p) = some v :=
    lookup_filterDict_mem s p n v hn hv
  rw [hnil] at hf
  cases hf

theorem mem_sectionOut (label : String) (d : Dict) (v : String)
    (hd : d ≠ []) (hv : v ∈ sectionLines d) : v ∈ sectionOut label d := by
  rw [sectionOut, if_neg hd]
  exact List.mem_cons_of_mem _ (List.mem_cons_of_mem _ hv)

theorem write_eq_sections (H : List String) (d1 d2 d3 d4 : Dict) :
    write_filtered_packages H d1 d2 d3 d4 = H ++ sectionsOut d1 d2 d3 d4 := by
  rw [write_filtered_packages, sectionsOut, secList]
  simp [List.append_assoc]

theorem headerLineOK_not_pkg (line : String) (h : headerLineOK line) :
    isPkgLine line = false := by
  rw [isPkgLine]
  rcases h.1 with h1 | h1
  · simp [h1]
  · simp [h1]

theorem readStep_blank (st : ReadSt) :
    readStep st "" = if st.inHeader then
      { st with header := st.header ++ [""] } else st := by
  have h1 : isPkgLine "" = false := by decide
  have h2 : pyStripWith pyIsSpace ("".data) = [] := by decide
  have h3 : hasKw [] = false := by decide
  simp only [readStep, h1, h2, h3]
  cases hh : st.inHeader <;> simp [hh]

theorem readStep_kwline (st : ReadSt) (line : String)
    (h1 : isPkgLine line = false)
    (h2 : hasKw (pyStripWith pyIsSpace line.data) = true) :
    readStep st line = st := by
  simp only [readStep, h1, h2]
  split
  · next hc => simp at hc
  · split <;> rfl

theorem readStep_pkg (st : ReadSt) (v : String)
    (h1 : isPkgLine v = true) (h2 : pkgNameOf v ≠ "") :
    readStep st v =
      { st with inHeader := false, dict := dinsert st.dict (pkgNameOf v) v } := by
  simp only [readStep, h1, if_pos h2]
  rfl

theorem readStep_headerline (st : ReadSt) (line : String) (h : headerLineOK line) :
    readStep st line = if st.inHeader then
      { st with header := st.header ++ [line] } else st := by
  simp only [readStep, headerLineOK_not_pkg line h, h.2]
  cases hh : st.inHeader <;> simp [hh, h.1]

theorem foldl_readStep_header (H : List String) :
    ∀ st : ReadSt, headerOK H → st.inHeader = true →
    List.foldl readStep st H = ⟨st.dict, st.header ++ H, true⟩ := by
  induction H with
  | nil => intro st _ hin; cases st; simp_all
  | cons l H2 ih =>
    intro st hH hin
    rw [List.foldl_cons, readStep_headerline st l (hH l (List.mem_cons_self l H2)),
      if_pos (by rw [hin])]
    rw [ih { dict := st.dict, header := st.header ++ [l], inHeader := st.inHeader }
      (fun x hx => hH x (List.mem_cons_of_mem l hx)) hin]
    simp

theorem foldl_readStep_pkgs (f : Dict) (hf : entriesOK f) (ks : List String) :
    ∀ st : ReadSt, (∀ k ∈ ks, k ∈ keys f) →
    List.foldl readStep st (ks.map (lookupD f)) =
      ⟨ks.foldl (fun d k => dinsert d k (lookupD f k)) st.dict, st.header,
        if ks.isEmpty then st.inHeader else false⟩ := by
  induction ks with
  | nil => intro st _; cases st; simp
  | cons k ks2 ih =>
    intro st hks
    obtain ⟨w, hw⟩ := lookup_of_mem_keys f k (hks k (List.mem_cons_self k ks2))
    have hwmem := mem_of_lookup f k w hw
    obtain ⟨hpkg, hname, hne⟩ := hf (k, w) hwmem
    have hval : lookupD f k = w := by rw [lookupD, hw]; rfl
    rw [List.map_cons, List.foldl_cons, hval,
      readStep_pkg st w hpkg (by rw [hname]; exact hne),
      ih _ (fun x hx => hks x (List.mem_cons_of_mem k hx))]
    rw [List.foldl_cons]
    simp [hname, hval]

theorem sortedKeys_ne_nil (f : Dict) (hf : f ≠ []) : sortedKeys f ≠ [] := by
  intro h
  apply hf
  have hp := List.perm_insertionSort (· ≤ ·) (keys f)
  rw [sortedKeys] at h
  rw [h] at hp
  have := hp.symm.length_eq
  rw [keys] at this
  simp at this
  exact this

theorem mem_sortedKeys_keys (f : Dict) (k : String) (h : k ∈ sortedKeys f) :
    k ∈ keys f :=
  (List.perm_insertionSort (· ≤ ·) (keys f)).mem_iff.mp h

theorem foldl_readStep_sectionOut (l : String) (f : Dict) (st : ReadSt)
    (hl : labelOK l) (hf : entriesOK f) :
    List.foldl readStep st (sectionOut l f) =
      if f = [] then st
      else ⟨insertSec st.dict f,
        st.header ++ (if st.inHeader then [""] else []), false⟩ := by
  by_cases hemp : f = []
  · rw [if_pos hemp, hemp, sectionOut, if_pos rfl]
    rfl
  · rw [if_neg hemp, sectionOut, if_neg hemp]
    rw [show ("" :: l :: sectionLines f) = [""] ++ [l] ++ sectionLines f from rfl]
    rw [List.foldl_append, List.foldl_append]
    have hst1 : List.foldl readStep st [""] =
        if st.inHeader then { st with header := st.header ++ [""] } else st := by
      rw [List.foldl_cons, List.foldl_nil, readStep_blank]
    have hlabel : ∀ st2 : ReadSt, List.foldl readStep st2 [l] = st2 := by
      intro st2
      rw [List.foldl_cons, List.foldl_nil, readStep_kwline st2 l hl.1 hl.2]
    have hsec : ∀ st2 : ReadSt, List.foldl readStep st2 (sectionLines f) =
        ⟨insertSec st2.dict f, st2.header, false⟩ := by
      intro st2
      rw [sectionLines, foldl_readStep_pkgs f hf (sortedKeys f) st2
        (fun x hx => mem_sortedKeys_keys f x hx)]
      rw [insertSec, if_neg (by
        intro hh
        exact sortedKeys_ne_nil f hemp (List.isEmpty_iff.mp hh))]
    rw [hst1, hlabel]
    cases hin : st.inHeader
    · rw [if_neg Bool.false_ne_true, hsec]
      simp
    · rw [if_pos rfl, hsec]
      simp

theorem insertSec_nil (d : Dict) : insertSec d [] = d := rfl

theorem foldl_readStep_sections (ps : List (String × Dict)) :
    ∀ st : ReadSt, (∀ pr ∈ ps, labelOK pr.1 ∧ entriesOK pr.2) →
    List.foldl readStep st
        (ps.foldr (fun pr acc => sectionOut pr.1 pr.2 ++ acc) []) =
      ⟨ps.foldl (fun d pr => insertSec d pr.2) st.dict,
       st.header ++
         (if st.inHeader && !(ps.all (fun pr => pr.2.isEmpty)) then [""] else []),
       st.inHeader && ps.all (fun pr => pr.2.isEmpty)⟩ := by
  induction ps with
  | nil =>
    intro st _
    cases st
    simp
  | cons pr ps2 ih =>
    intro st hps
    obtain ⟨l, f⟩ := pr
    rw [List.foldr_cons, List.foldl_append,
      foldl_readStep_sectionOut l f st (hps (l, f) (List.mem_cons_self _ _)).1
        (hps (l, f) (List.mem_cons_self _ _)).2]
    by_cases hemp : f = []
    · subst hemp
      rw [if_pos rfl, ih st (fun x hx => hps x (List.mem_cons_of_mem _ hx))]
      simp only [List.foldl_cons, List.all_cons, insertSec_nil, List.isEmpty_nil,
        Bool.true_and]
    · rw [if_neg hemp,
        ih _ (fun x hx => hps x (List.mem_cons_of_mem _ hx))]
      have hfe : f.isEmpty = false := by
        cases f
        · exact absurd rfl hemp
        · rfl
      cases hin : st.inHeader <;>
        simp [hfe, List.foldl_cons]

theorem lookup_foldl_dinsert (g : String → String) (ks : List String) :
    ∀ (d : Dict) (n : String),
    List.lookup n (ks.foldl (fun d k => dinsert d k (g k)) d) =
      if n ∈ ks then some (g n) else List.lookup n d := by
  induction ks with
  | nil =>
    intro d n
    simp
  | cons m ms ih =>
    intro d n
    rw [List.foldl_cons, ih]
    by_cases hnm : n ∈ ms
    · rw [if_pos hnm, if_pos (List.mem_cons_of_mem _ hnm)]
    · rw [if_neg hnm, lookup_dinsert]
      by_cases hn : n = m
      · subst hn
        rw [if_pos rfl, if_pos (List.mem_cons_self _ _)]
      · rw [if_neg hn, if_neg (fun hc => by
          rcases List.mem_cons.mp hc with h | h
          · exact hn h
          · exact hnm h)]

theorem lookup_insertSec (d f p : Dict) (n : String)
    (hcons : ∀ k w, List.lookup k f = some w → List.lookup k p = some w) :
    List.lookup n (insertSec d f) =
      if n ∈ keys f then List.lookup n p else List.lookup n d := by
  rw [insertSec, lookup_foldl_dinsert]
  by_cases hn : n ∈ sortedKeys f
  · rw [if_pos hn, if_pos (mem_sortedKeys_keys f n hn)]
    obtain ⟨w, hw⟩ := lookup_of_mem_keys f n (mem_sortedKeys_keys f n hn)
    have hv : lookupD f n = w := by
      rw [lookupD, hw]
      rfl
    rw [hv, hcons n w hw]
  · rw [if_neg hn, if_neg (fun hc => hn
      ((List.perm_insertionSort (· ≤ ·) (keys f)).mem_iff.mpr hc))]

theorem lookup_secfold (ps : List (String × Dict)) (p : Dict) :
    ∀ (d : Dict) (n : String),
    (∀ pr ∈ ps, ∀ k w, List.lookup k pr.2 = some w → List.lookup k p = some w) →
    List.lookup n (ps.foldl (fun d pr => insertSec d pr.2) d) =
      if ps.any (fun pr => decide (n ∈ keys pr.2)) then List.lookup n p
      else List.lookup n d := by
  induction ps with
  | nil =>
    intro d n _
    simp
  | cons pr ps2 ih =>
    intro d n hcons
    rw [List.foldl_cons, ih _ n (fun x hx => hcons x (List.mem_cons_of_mem _ hx)),
      lookup_insertSec d pr.2 p n (hcons pr (List.mem_cons_self _ _))]
    by_cases h2 : ps2.any (fun q => decide (n ∈ keys q.2))
    · rw [if_pos h2, if_pos (by
        rw [List.any_cons, h2, Bool.or_true])]
    · rw [if_neg (fun hc => h2 hc)]
      by_cases h1 : n ∈ keys pr.2
      · rw [if_pos h1, if_pos (by
          rw [List.any_cons]
          have : decide (n ∈ keys pr.2) = true := decide_eq_true h1
          rw [this, Bool.true_or])]
      · rw [if_neg h1, if_neg (by
          rw [List.any_cons]
          intro hc
          rcases Bool.or_eq_true_iff.mp hc with h | h
          · exact h1 (of_decide_eq_true h)
          · exact h2 (by
              rw [show ps2.any (fun q => decide (n ∈ keys q.2)) = true from h]))]

theorem mem_filterDict (s : List String) (p : Dict) (pr : String × String)
    (h : pr ∈ filterDict s p) : List.lookup pr.1 p = some pr.2 := by
  have aux : ∀ acc : Dict,
      pr ∈ s.foldl (fun acc m => match List.lookup m p with
        | some w => dinsert acc m w
        | none => acc) acc →
      pr ∈ acc ∨ List.lookup pr.1 p = some pr.2 := by
    clear h
    induction s with
    | nil => intro acc hh; exact Or.inl hh
    | cons m ms ih =>
      intro acc hh
      rw [List.foldl_cons] at hh
      cases hl : List.lookup m p with
      | some w =>
        rw [hl] at hh
        rcases ih (dinsert acc m w) hh with h1 | h1
        · rcases mem_dinsert acc m w pr h1 with h3 | h3
          · exact Or.inl h3
          · right
            rw [h3]
            exact hl
        · exact Or.inr h1
      | none =>
        rw [hl] at hh
        rcases ih acc hh with h1 | h1
        · exact Or.inl h1
        · exact Or.inr h1
  rcases aux [] h with h1 | h1
  · exact absurd h1 (List.not_mem_nil pr)
  · exact h1

theorem entriesOK_filterDict (s : List String) (p : Dict) (hp : entriesOK p) :
    entriesOK (filterDict s p) := by
  intro pr hpr
  exact hp pr (mem_of_lookup p pr.1 pr.2 (mem_filterDict s p pr hpr))

theorem filterDict_congr (s : List String) (p q : Dict)
    (h : ∀ n ∈ s, List.lookup n q = List.lookup n p) :
    filterDict s q = filterDict s p := by
  have aux : ∀ acc : Dict, (∀ n ∈ s, List.lookup n q = List.lookup n p) →
      s.foldl (fun acc m => match List.lookup m q with
        | some w => dinsert acc m w
        | none => acc) acc =
      s.foldl (fun acc m => match List.lookup m p with
        | some w => dinsert acc m w
        | none => acc) acc := by
    clear h
    induction s with
    | nil => intro acc _; rfl
    | cons m ms ih =>
      intro acc hh
      simp only [List.foldl_cons]
      rw [hh m (List.mem_cons_self _ _)]
      exact ih (match List.lookup m p with
        | some w => dinsert acc m w
        | none => acc) (fun x hx => hh x (List.mem_cons_of_mem _ hx))
  exact aux [] h

theorem readStep_inv (st : ReadSt) (line : String)
    (h1 : entriesOK st.dict) (h2 : headerOK st.header) :
    entriesOK (readStep st line).dict ∧ headerOK (readStep st line).header := by
  simp only [readStep]
  split
  · next hpkg =>
    refine ⟨?_, h2⟩
    dsimp only
    split
    · next hne =>
      intro pr hpr
      rcases mem_dinsert st.dict (pkgNameOf line) line pr hpr with h | h
      · exact h1 pr h
      · rw [h]
        exact ⟨hpkg, rfl, hne⟩
    · exact h1
  · split
    · next hcond =>
      split
      · exact ⟨h1, h2⟩
      · next hkw =>
        refine ⟨h1, ?_⟩
        intro x hx
        rcases List.mem_append.mp hx with h | h
        · exact h2 x h
        · have hxl : x = line := List.mem_singleton.mp h
          subst hxl
          exact ⟨hcond.2, by simpa using hkw⟩
    · exact ⟨h1, h2⟩

theorem read_inv (L : List String) :
    entriesOK (read_pinned_packages L).1 ∧ headerOK (read_pinned_packages L).2 := by
  have key : ∀ (ls : List String) (st : ReadSt),
      entriesOK st.dict → headerOK st.header →
      entriesOK (ls.foldl readStep st).dict ∧
        headerOK (ls.foldl readStep st).header := by
    intro ls
    induction ls with
    | nil => exact fun st u v => ⟨u, v⟩
    | cons l ls2 ih =>
      intro st u v
      rw [List.foldl_cons]
      obtain ⟨u2, v2⟩ := readStep_inv st l u v
      exact ih _ u2 v2
  exact key L ⟨[], [], true⟩
    (fun pr hpr => absurd hpr (List.not_mem_nil pr))
    (fun x hx => absurd hx (List.not_mem_nil x))

theorem label1_OK : labelOK label1 := by
  constructor <;> decide

theorem label2_OK : labelOK label2 := by
  constructor <;> decide

theorem label3_OK : labelOK label3 := by
  constructor <;> decide

theorem label4_OK : labelOK label4 := by
  constructor <;> decide

theorem sectionsOut_eq_nil_iff (d1 d2 d3 d4 : Dict) :
    (sectionsOut d1 d2 d3 d4 = []) ↔
      (d1 = [] ∧ d2 = [] ∧ d3 = [] ∧ d4 = []) := by
  rw [sectionsOut, secList]
  simp only [List.foldr_cons, List.foldr_nil, List.append_nil, List.append_eq_nil]
  rw [sectionOut, sectionOut, sectionOut, sectionOut]
  constructor
  · intro h
    refine ⟨?_, ?_, ?_, ?_⟩
    · by_cases hd : d1 = []
      · exact hd
      · rw [if_neg hd] at h
        cases h.1
    · by_cases hd : d2 = []
      · exact hd
      · rw [if_neg hd] at h
        cases h.2.1
    · by_cases hd : d3 = []
      · exact hd
      · rw [if_neg hd] at h
        cases h.2.2.1
    · by_cases hd : d4 = []
      · exact hd
      · rw [if_neg hd] at h
        cases h.2.2.2
  · intro h
    rw [if_pos h.1, if_pos h.2.1, if_pos h.2.2.1, if_pos h.2.2.2]
    simp

theorem secList_mem_cases (f1 f2 f3 f4 : Dict) (pr : String × Dict)
    (h : pr ∈ secList f1 f2 f3 f4) :
    pr = (label1, f1) ∨ pr = (label2, f2) ∨ pr = (label3, f3) ∨ pr = (label4, f4) := by
  rcases List.mem_cons.mp h with h2 | h2
  · exact Or.inl h2
  rcases List.mem_cons.mp h2 with h3 | h3
  · exact Or.inr (Or.inl h3)
  rcases List.mem_cons.mp h3 with h4 | h4
  · exact Or.inr (Or.inr (Or.inl h4))
  rcases List.mem_cons.mp h4 with h5 | h5
  · exact Or.inr (Or.inr (Or.inr h5))
  · exact absurd h5 (List.not_mem_nil pr)

theorem runOut_of_write (s1 s2 s3 s4 : List String) (H : List String) (p : Dict)
    (hH : headerOK H) (hp : entriesOK p) :
    runOut s1 s2 s3 s4 (write_filtered_packages H (filterDict s1 p)
        (filterDict s2 p) (filterDict s3 p) (filterDict s4 p)) =
      H ++
        (if sectionsOut (filterDict s1 p) (filterDict s2 p) (filterDict s3 p)
            (filterDict s4 p) = [] then [] else [""]) ++
        sectionsOut (filterDict s1 p) (filterDict s2 p) (filterDict s3 p)
          (filterDict s4 p) := by
  have hps : ∀ pr ∈ secList (filterDict s1 p) (filterDict s2 p)
      (filterDict s3 p) (filterDict s4 p), labelOK pr.1 ∧ entriesOK pr.2 := by
    intro pr hpr
    rcases secList_mem_cases _ _ _ _ pr hpr with rfl | rfl | rfl | rfl
    · exact ⟨label1_OK, entriesOK_filterDict s1 p hp⟩
    · exact ⟨label2_OK, entriesOK_filterDict s2 p hp⟩
    · exact ⟨label3_OK, entriesOK_filterDict s3 p hp⟩
    · exact ⟨label4_OK, entriesOK_filterDict s4 p hp⟩
  have hcons : ∀ pr ∈ secList (filterDict s1 p) (filterDict s2 p)
      (filterDict s3 p) (filterDict s4 p),
      ∀ k w, List.lookup k pr.2 = some w → List.lookup k p = some w := by
    intro pr hpr
    rcases secList_mem_cases _ _ _ _ pr hpr with rfl | rfl | rfl | rfl
    · exact fun k w h => (lookup_filterDict_some s1 p k w h).2
    · exact fun k w h => (lookup_filterDict_some s2 p k w h).2
    · exact fun k w h => (lookup_filterDict_some s3 p k w h).2
    · exact fun k w h => (lookup_filterDict_some s4 p k w h).2
  have hread : read_pinned_packages (write_filtered_packages H (filterDict s1 p)
      (filterDict s2 p) (filterDict s3 p) (filterDict s4 p)) =
      ((secList (filterDict s1 p) (filterDict s2 p) (filterDict s3 p)
          (filterDict s4 p)).foldl (fun d pr => insertSec d pr.2) [],
       H ++ (if (secList (filterDict s1 p) (filterDict s2 p) (filterDict s3 p)
          (filterDict s4 p)).all (fun pr => pr.2.isEmpty) then [] else [""])) := by
    rw [write_eq_sections]
    simp only [read_pinned_packages]
    rw [List.foldl_append, foldl_readStep_header H ⟨[], [], true⟩ hH rfl,
      show sectionsOut (filterDict s1 p) (filterDict s2 p) (filterDict s3 p)
          (filterDict s4 p) =
        (secList (filterDict s1 p) (filterDict s2 p) (filterDict s3 p)
          (filterDict s4 p)).foldr (fun pr acc => sectionOut pr.1 pr.2 ++ acc) []
        from rfl,
      foldl_readStep_sections _ _ hps]
    cases hall : (secList (filterDict s1 p) (filterDict s2 p) (filterDict s3 p)
        (filterDict s4 p)).all (fun pr => pr.2.isEmpty) <;>
      simp [hall]
  have hlook : ∀ n : String, (n ∈ s1 ∨ n ∈ s2 ∨ n ∈ s3 ∨ n ∈ s4) →
      List.lookup n ((secList (filterDict s1 p) (filterDict s2 p) (filterDict s3 p)
        (filterDict s4 p)).foldl (fun d pr => insertSec d pr.2) []) =
      List.lookup n p := by
    intro n hn
    rw [lookup_secfold _ p [] n hcons]
    by_cases hany : (secList (filterDict s1 p) (filterDict s2 p) (filterDict s3 p)
        (filterDict s4 p)).any (fun pr => decide (n ∈ keys pr.2))
    · rw [if_pos hany]
    · rw [if_neg hany]
      cases hl : List.lookup n p with
      | none => rfl
      | some w =>
        exfalso
        apply hany
        rcases hn with h | h | h | h
        · exact List.any_eq_true.mpr ⟨(label1, filterDict s1 p),
            List.mem_cons_self _ _,
            decide_eq_true (List.mem_map_of_mem Prod.fst
              (mem_of_lookup _ n w (lookup_filterDict_mem s1 p n w h hl)))⟩
        · exact List.any_eq_true.mpr ⟨(label2, filterDict s2 p),
            List.mem_cons_of_mem _ (List.mem_cons_self _ _),
            decide_eq_true (List.mem_map_of_mem Prod.fst
              (mem_of_lookup _ n w (lookup_filterDict_mem s2 p n w h hl)))⟩
        · exact List.any_eq_true.mpr ⟨(label3, filterDict s3 p),
            List.mem_cons_of_mem _ (List.mem_cons_of_mem _ (List.mem_cons_self _ _)),
            decide_eq_true (List.mem_map_of_mem Prod.fst
              (mem_of_lookup _ n w (lookup_filterDict_mem s3 p n w h hl)))⟩
        · exact List.any_eq_true.mpr ⟨(label4, filterDict s4 p),
            List.mem_cons_of_mem _ (List.mem_cons_of_mem _
              (List.mem_cons_of_mem _ (List.mem_cons_self _ _))),
            decide_eq_true (List.mem_map_of_mem Prod.fst
              (mem_of_lookup _ n w (lookup_filterDict_mem s4 p n w h hl)))⟩
  simp only [runOut]
  rw [hread]
  have hc1 : filterDict s1 ((secList (filterDict s1 p) (filterDict s2 p)
      (filterDict s3 p) (filterDict s4 p)).foldl (fun d pr => insertSec d pr.2) []) =
      filterDict s1 p :=
    filterDict_congr s1 p _ (fun n hn => hlook n (Or.inl hn))
  have hc2 : filterDict s2 ((secList (filterDict s1 p) (filterDict s2 p)
      (filterDict s3 p) (filterDict s4 p)).foldl (fun d pr => insertSec d pr.2) []) =
      filterDict s2 p :=
    filterDict_congr s2 p _ (fun n hn => hlook n (Or.inr (Or.inl hn)))
  have hc3 : filterDict s3 ((secList (filterDict s1 p) (filterDict s2 p)
      (filterDict s3 p) (filterDict s4 p)).foldl (fun d pr => insertSec d pr.2) []) =
      filterDict s3 p :=
    filterDict_congr s3 p _ (fun n hn => hlook n (Or.inr (Or.inr (Or.inl hn))))
  have hc4 : filterDict s4 ((secList (filterDict s1 p) (filterDict s2 p)
      (filterDict s3 p) (filterDict s4 p)).foldl (fun d pr => insertSec d pr.2) []) =
      filterDict s4 p :=
    filterDict_congr s4 p _ (fun n hn => hlook n (Or.inr (Or.inr (Or.inr hn))))
  show write_filtered_packages
      (H ++ (if (secList (filterDict s1 p) (filterDict s2 p) (filterDict s3 p)
          (filterDict s4 p)).all (fun pr => pr.2.isEmpty) then [] else [""]))
      (filterDict s1 _) (filterDict s2 _) (filterDict s3 _) (filterDict s4 _) = _
  rw [hc1, hc2, hc3, hc4, write_eq_sections]
  have hiff : ((secList (filterDict s1 p) (filterDict s2 p) (filterDict s3 p)
      (filterDict s4 p)).all (fun pr => pr.2.isEmpty) = true) ↔
      sectionsOut (filterDict s1 p) (filterDict s2 p) (filterDict s3 p)
        (filterDict s4 p) = [] := by
    rw [sectionsOut_eq_nil_iff, secList]
    simp [List.isEmpty_iff]
  by_cases hall : (secList (filterDict s1 p) (filterDict s2 p) (filterDict s3 p)
      (filterDict s4 p)).all (fun pr => pr.2.isEmpty) = true
  · rw [hall, if_pos (hiff.mp hall)]
    rfl
  · have hallf : (secList (filterDict s1 p) (filterDict s2 p) (filterDict s3 p)
        (filterDict s4 p)).all (fun pr => pr.2.isEmpty) = false :=
      Bool.eq_false_iff.mpr hall
    rw [hallf, if_neg (fun hc => hall (hiff.mpr hc))]
    rfl

theorem count_write_ge_two (s1 s2 s3 s4 : List String) (H : List String)
    (p : Dict) (n v : String) (hbase : n ∈ s1 ∨ n ∈ s2 ∨ n ∈ s3)
    (h4 : n ∈ s4) (hv : List.lookup n p = some v) :
    2 ≤ List.count v (write_filtered_packages H (filterDict s1 p)
      (filterDict s2 p) (filterDict s3 p) (filterDict s4 p)) := by
  rw [write_eq_sections,
    show sectionsOut (filterDict s1 p) (filterDict s2 p) (filterDict s3 p)
        (filterDict s4 p) =
      sectionOut label1 (filterDict s1 p) ++ (sectionOut label2 (filterDict s2 p) ++
        (sectionOut label3 (filterDict s3 p) ++ (sectionOut label4 (filterDict s4 p) ++ [])))
      from rfl]
  have c4 : 0 < List.count v (sectionOut label4 (filterDict s4 p)) :=
    List.count_pos_iff.mpr (mem_sectionOut label4 _ v
      (filterDict_ne_nil s4 p n v h4 hv) (mem_sectionLines s4 p n v h4 hv))
  simp only [List.count_append, List.count_nil]
  rcases hbase with h | h | h
  · have c1 : 0 < List.count v (sectionOut label1 (filterDict s1 p)) :=
      List.count_pos_iff.mpr (mem_sectionOut label1 _ v
        (filterDict_ne_nil s1 p n v h hv) (mem_sectionLines s1 p n v h hv))
    omega
  · have c2 : 0 < List.count v (sectionOut label2 (filterDict s2 p)) :=
      List.count_pos_iff.mpr (mem_sectionOut label2 _ v
        (filterDict_ne_nil s2 p n v h hv) (mem_sectionLines s2 p n v h hv))
    omega
  · have c3 : 0 < List.count v (sectionOut label3 (filterDict s3 p)) :=
      List.count_pos_iff.mpr (mem_sectionOut label3 _ v
        (filterDict_ne_nil s3 p n v h hv) (mem_sectionLines s3 p n v h hv))
    omega

end FilterV

/-- C5 counterexample: with the second, third and fourth name collections
empty, the writer omits their labeled sections entirely, so its output
differs from the one-labeled-section-per-input-set form stated by the
claim, and the label of the second section does not occur in the output
at all. -/
theorem write_skips_empty_sections :
    FilterV.write_filtered_packages []
        (FilterV.filterDict ["numpy"] [("numpy", "numpy=1.0=h1")]) [] [] [] ≠
      FilterV.write_filtered_spec []
        (FilterV.filterDict ["numpy"] [("numpy", "numpy=1.0=h1")]) [] [] [] ∧
    FilterV.label2 ∉ FilterV.write_filtered_packages []
        (FilterV.filterDict ["numpy"] [("numpy", "numpy=1.0=h1")]) [] [] [] := by
  decide

/-- C5 amended: the rewriter writes the retained header followed by one
labeled section per input package-name set whose filtered entry map is
nonempty (a set with no pinned entry contributes no section); within each
section the entries appear sorted alphabetically by package name, and
every entry line of a section is the verbatim pinned-manifest line of a
package name belonging to that section's set. -/
theorem write_filtered_structure (H : List String) (d1 d2 d3 d4 : FilterV.Dict)
    (s : List String) (p : FilterV.Dict) :
    FilterV.write_filtered_packages H d1 d2 d3 d4 =
      H ++ FilterV.sectionOut FilterV.label1 d1 ++
        FilterV.sectionOut FilterV.label2 d2 ++
        FilterV.sectionOut FilterV.label3 d3 ++
        FilterV.sectionOut FilterV.label4 d4 ∧
    (∀ label : String, ∀ d : FilterV.Dict,
      (FilterV.sectionOut label d = [] ↔ d = []) ∧
      (d ≠ [] → FilterV.sectionOut label d =
        "" :: label :: FilterV.sectionLines d)) ∧
    List.Sorted (· ≤ ·) (FilterV.sortedKeys (FilterV.filterDict s p)) ∧
    (∀ line ∈ FilterV.sectionLines (FilterV.filterDict s p),
      ∃ m, m ∈ s ∧ List.lookup m p = some line) := by
  refine ⟨rfl, ?_, ?_, ?_⟩
  · intro label d
    constructor
    · rw [FilterV.sectionOut]
      constructor
      · intro h
        by_cases hd : d = []
        · exact hd
        · rw [if_neg hd] at h
          cases h
      · intro h
        rw [if_pos h]
    · intro hd
      rw [FilterV.sectionOut, if_neg hd]
  · exact List.sorted_insertionSort (· ≤ ·) _
  · intro line hline
    rw [FilterV.sectionLines] at hline
    rcases List.mem_map.mp hline with ⟨k, hk, hkv⟩
    have hkeys : k ∈ FilterV.keys (FilterV.filterDict s p) :=
      (List.perm_insertionSort (· ≤ ·) _).mem_iff.mp hk
    obtain ⟨w, hw⟩ := FilterV.lookup_of_mem_keys _ k hkeys
    have hwline : w = line := by
      rw [FilterV.lookupD, hw] at hkv
      exact hkv
    subst hwline
    obtain ⟨hks, hkp⟩ := FilterV.lookup_filterDict_some s p k w hw
    exact ⟨k, hks, hkp⟩

/-- C5 witness: the last part of the structure theorem applied at a
concrete section line. -/
theorem write_filtered_structure_witness :
    ∃ m, m ∈ ["numpy"] ∧
      List.lookup m [("numpy", "numpy=1.0=h1")] = some "numpy=1.0=h1" :=
  (write_filtered_structure [] [] [] [] [] ["numpy"]
    [("numpy", "numpy=1.0=h1")]).2.2.2 "numpy=1.0=h1" (by decide)

/-- C9: a package name belonging to one of the three py-rocket-base name
collections and also to the env-files collection, and present in the
pinned manifest, has its literal line written in each corresponding
labeled section, so the line occurs at least twice in the rewritten
manifest: the sections are not disjoint. -/
theorem overlapping_sections (s1 s2 s3 s4 : List String) (H : List String)
    (p : FilterV.Dict) (n v : String) (hbase : n ∈ s1 ∨ n ∈ s2 ∨ n ∈ s3)
    (h4 : n ∈ s4) (hv : List.lookup n p = some v) :
    2 ≤ List.count v (FilterV.write_filtered_packages H
      (FilterV.filterDict s1 p) (FilterV.filterDict s2 p)
      (FilterV.filterDict s3 p) (FilterV.filterDict s4 p)) :=
  FilterV.count_write_ge_two s1 s2 s3 s4 H p n v hbase h4 hv

/-- C9 witness: the name numpy lies in the first and in the fourth
collection and is pinned, and its line is counted at least twice in the
rewritten output. -/
theorem overlapping_sections_witness :
    (("numpy" ∈ ["numpy"] ∨ "numpy" ∈ ([] : List String) ∨
        "numpy" ∈ ([] : List String)) ∧
      "numpy" ∈ ["numpy"] ∧
      List.lookup "numpy" [("numpy", "numpy=1.0=h1")] = some "numpy=1.0=h1") ∧
    2 ≤ List.count "numpy=1.0=h1" (FilterV.write_filtered_packages []
      (FilterV.filterDict ["numpy"] [("numpy", "numpy=1.0=h1")])
      (FilterV.filterDict [] [("numpy", "numpy=1.0=h1")])
      (FilterV.filterDict [] [("numpy", "numpy=1.0=h1")])
      (FilterV.filterDict ["numpy"] [("numpy", "numpy=1.0=h1")])) :=
  ⟨⟨Or.inl (by decide), by decide, by decide⟩,
    overlapping_sections ["numpy"] [] [] ["numpy"] [] [("numpy", "numpy=1.0=h1")]
      "numpy" "numpy=1.0=h1" (Or.inl (by decide)) (by decide) (by decide)⟩

/-- C4 counterexample: a second run of the read-then-rewrite pass on the
output of a first run is not byte-identical to that output; on this
concrete manifest the second run inserts an additional blank line. -/
theorem rewrite_not_idempotent :
    FilterV.runOut ["numpy"] [] [] []
        (FilterV.runOut ["numpy"] [] [] [] ["# header", "numpy=1.0=h1"]) ≠
      FilterV.runOut ["numpy"] [] [] [] ["# header", "numpy=1.0=h1"] := by
  decide

/-- C4 amended: the second run of the read-then-rewrite pass returns the
header retained from the original manifest, then one extra blank line
when at least one filtered section is nonempty, then the same section
body as the first run; the first run returns the header followed directly
by that body, so the second output differs from the first exactly by that
single blank line and the rewrite is idempotent only when every filtered
section is empty. -/
theorem rewrite_second_run (s1 s2 s3 s4 L : List String) :
    FilterV.runOut s1 s2 s3 s4 (FilterV.runOut s1 s2 s3 s4 L) =
      (FilterV.read_pinned_packages L).2 ++
        (if FilterV.sectionsOut
              (FilterV.filterDict s1 (FilterV.read_pinned_packages L).1)
              (FilterV.filterDict s2 (FilterV.read_pinned_packages L).1)
              (FilterV.filterDict s3 (FilterV.read_pinned_packages L).1)
              (FilterV.filterDict s4 (FilterV.read_pinned_packages L).1) = []
          then [] else [""]) ++
        FilterV.sectionsOut
          (FilterV.filterDict s1 (FilterV.read_pinned_packages L).1)
          (FilterV.filterDict s2 (FilterV.read_pinned_packages L).1)
          (FilterV.filterDict s3 (FilterV.read_pinned_packages L).1)
          (FilterV.filterDict s4 (FilterV.read_pinned_packages L).1) := by
  obtain ⟨hp, hH⟩ := FilterV.read_inv L
  have h1 : FilterV.runOut s1 s2 s3 s4 L =
      FilterV.write_filtered_packages (FilterV.read_pinned_packages L).2
        (FilterV.filterDict s1 (FilterV.read_pinned_packages L).1)
        (FilterV.filterDict s2 (FilterV.read_pinned_packages L).1)
        (FilterV.filterDict s3 (FilterV.read_pinned_packages L).1)
        (FilterV.filterDict s4 (FilterV.read_pinned_packages L).1) := rfl
  rw [h1]
  exact FilterV.runOut_of_write s1 s2 s3 s4 _ _ hH hp
